import Mathlib

/-!
Verification of the dolt prolly-tree storage slice: the address-map message
codec, scan partitioning, table truncation, the partition iterator, and the
system-table name listing.

Shallow embedding conventions:
* byte strings are lists of natural numbers (each conceptually < 256);
* machine-integer truncations (uint8, uint16, uint64) are explicit mod
  operations at the points where the source converts;
* the flatbuffers message is modelled by the record of regions that the
  generated serial.AddressMap accessors expose (key bytes, key offsets,
  address bytes, subtree-count bytes, tree count, tree level); the byte-level
  packing helpers of the message package are not part of the source sample
  and are modelled from the spec where noted;
* effectful callbacks and the stateful root value are embedded by explicit
  state passing; fallible code returns Option or Except.
-/

/-- Byte strings are modelled as lists of naturals. -/
abbrev Bytes := List Nat

/-- hash.ByteLen: the fixed size of a content address, 20 bytes. -/
def addrSize : Nat := 20

/-- Size in bytes of a uint16 offset entry. -/
def uint16Size : Nat := 2

/-- binary.MaxVarintLen64. -/
def maxVarintLen64 : Nat := 10

/-- Modelled from the spec: the fixed-size message prefix (format and version
tag) that precedes every serialized payload (serial.MessagePrefixSz).  Its
exact value does not influence any claim; only its presence in the size
estimate does. -/
def messagePrefixSz : Nat := 8

/-- Modelled from the spec: Go binary.PutUvarint, little-endian base-128
varint encoding; low 7 bits first, high bit of a byte marks continuation. -/
def putUvarint (x : Nat) : Bytes :=
  if x < 128 then [x]
  else (x % 128 + 128) :: putUvarint (x / 128)
decreasing_by exact Nat.div_lt_self (by omega) (by omega)

/-- Modelled from the spec: Go binary.Uvarint, reading one varint from the
front of a buffer and returning the decoded value with the remaining bytes. -/
def readUvarint : Bytes → Nat × Bytes
  | [] => (0, [])
  | b :: rest =>
    if b < 128 then (b, rest)
    else (b % 128 + 128 * (readUvarint rest).1, (readUvarint rest).2)

/-- Modelled from the spec: decodeVarints of the message package, decoding a
fixed number of varint counts from the front of a buffer. -/
def decodeVarints : Bytes → Nat → List Nat
  | _, 0 => []
  | buf, n + 1 => (readUvarint buf).1 :: decodeVarints (readUvarint buf).2 n

/-- Modelled from the spec: writeCountArray packs the subtree counts as
consecutive varints in logical order. -/
def writeCountArray (subtrees : List Nat) : Bytes :=
  (subtrees.map putUvarint).flatten

/-- Modelled from the spec: sumSubtrees adds the per-child counts with uint64
arithmetic (wraparound is the explicit mod). -/
def sumSubtrees (subtrees : List Nat) : Nat :=
  subtrees.sum % 18446744073709551616

/-- Total byte length of a list of items. -/
def sumLens (items : List Bytes) : Nat :=
  (items.map List.length).sum

/-- Modelled from the spec: writeItemBytes packs the items contiguously with
no separators. -/
def writeItemBytes (items : List Bytes) : Bytes :=
  items.flatten

/-- Modelled from the spec: writeItemOffsets produces the offsets vector of
length (number of items) + 1 holding cumulative byte offsets, each stored as
a 2-byte unsigned integer (the explicit mod). -/
def writeItemOffsets (items : List Bytes) : List Nat :=
  (List.range (items.length + 1)).map fun i => sumLens (items.take i) % 65536

/-- Modelled from the spec: offsetsForAddressArray synthesizes a uint16
offsets vector for a packed array of fixed-size (20-byte) addresses. -/
def offsetsForAddressArray (arr : Bytes) : List Nat :=
  (List.range (arr.length / addrSize + 1)).map fun i => i * addrSize % 65536

/-- A zero-copy view of packed items: the item bytes plus the decoded offsets
vector (message package ItemArray, offsets held as their uint16 values). -/
structure ItemArray where
  Items : Bytes
  Offs : List Nat
deriving DecidableEq, Repr

/-- Modelled from the spec: the i-th item of an ItemArray is the slice
Items[Offs[i] : Offs[i+1]]. -/
def ItemArray.getItem (a : ItemArray) (i : Nat) : Bytes :=
  (a.Items.drop (a.Offs.getD i 0)).take (a.Offs.getD (i + 1) 0 - a.Offs.getD i 0)

/-- Number of items of an ItemArray (offsets vector length minus one). -/
def ItemArray.count (a : ItemArray) : Nat := a.Offs.length - 1

/-- The list of items denoted by an ItemArray. -/
def ItemArray.items (a : ItemArray) : List Bytes :=
  (List.range a.count).map a.getItem

/-- The decoded view of a serialized address-map message: the regions of the
flatbuffer that the serial.AddressMap accessors expose. -/
structure AddressMapMsg where
  keyItems : Bytes
  keyOffsets : List Nat
  addressArray : Bytes
  subtreeCounts : Bytes
  treeCount : Nat
  treeLevel : Nat
deriving DecidableEq, Repr

/-- estimateAddressMapSize: sums the item sizes plus fixed overheads.  The
source asserts len(keys) == len(addresses); the assertion failure is embedded
as the none branch. -/
def estimateAddressMapSize (keys addresses : List Bytes) (subtrees : List Nat) :
    Option (Nat × Nat × Nat) :=
  if keys.length = addresses.length then
    let keySz := sumLens keys
    let addrSz := sumLens addresses
    let totalSz := keySz + addrSz + keys.length * uint16Size
      + subtrees.length * maxVarintLen64 + (8 + 1 + 1 + 1) + 72 + messagePrefixSz
    some (keySz, addrSz, totalSz)
  else
    none

/-- AddressMapSerializer.Serialize: packs keys, addresses, and (for level > 0)
subtree counts into a message; records the tree count (sum of subtrees at
internal levels, number of keys at the leaf level) and the level byte.
Returns none when the length assertion of estimateAddressMapSize fails.
Tree levels are nonnegative in every caller; the Go int is embedded as Nat
and the uint8 conversion of the level is the explicit mod 256. -/
def AddressMapSerializer.Serialize (keys addrs : List Bytes) (subtrees : List Nat)
    (level : Nat) : Option AddressMapMsg :=
  match estimateAddressMapSize keys addrs subtrees with
  | none => none
  | some _ =>
    some { keyItems := writeItemBytes keys
           keyOffsets := writeItemOffsets keys
           addressArray := writeItemBytes addrs
           subtreeCounts := if level > 0 then writeCountArray subtrees else []
           treeCount := if level > 0 then sumSubtrees subtrees else keys.length
           treeLevel := level % 256 }

/-- getAddressMapKeys: zero-copy view of the packed keys and their offsets. -/
def getAddressMapKeys (msg : AddressMapMsg) : ItemArray :=
  { Items := msg.keyItems, Offs := msg.keyOffsets }

/-- getAddressMapValues: zero-copy view of the packed addresses, with a
synthesized offsets vector of fixed 20-byte stride. -/
def getAddressMapValues (msg : AddressMapMsg) : ItemArray :=
  { Items := msg.addressArray, Offs := offsetsForAddressArray msg.addressArray }

/-- getAddressMapCount: uint16(KeyOffsetsLength() - 1); the uint16 conversion
is the explicit mod. -/
def getAddressMapCount (msg : AddressMapMsg) : Nat :=
  (msg.keyOffsets.length - 1) % 65536

/-- getAddressMapTreeLevel. -/
def getAddressMapTreeLevel (msg : AddressMapMsg) : Nat := msg.treeLevel

/-- getAddressMapTreeCount. -/
def getAddressMapTreeCount (msg : AddressMapMsg) : Nat := msg.treeCount

/-- getAddressMapSubtrees: decodes getAddressMapCount many varint counts from
the subtree-counts region. -/
def getAddressMapSubtrees (msg : AddressMapMsg) : List Nat :=
  decodeVarints msg.subtreeCounts (getAddressMapCount msg)

/-- The i-th fixed-size address slice arr[i*addrSize : (i+1)*addrSize]. -/
def addrChunk (arr : Bytes) (i : Nat) : Bytes :=
  (arr.drop (i * addrSize)).take addrSize

/-- The loop body of walkAddressMapAddresses: iterate the index list, invoke
the callback (embedded with explicit state passing) on each address slice,
and stop at the first error. -/
def walkAddressMapAddressesLoop {σ ε : Type} (cb : σ → Bytes → σ × Option ε)
    (arr : Bytes) : List Nat → σ → σ × Option ε
  | [], s => (s, none)
  | i :: rest, s =>
    match cb s (addrChunk arr i) with
    | (s1, some e) => (s1, some e)
    | (s1, none) => walkAddressMapAddressesLoop cb arr rest s1

/-- walkAddressMapAddresses: for i in [0, len(arr)/hash.ByteLen), build the
address from arr[i*addrSize:(i+1)*addrSize] and invoke the callback, failing
fast on the first error. -/
def walkAddressMapAddresses {σ ε : Type} (msg : AddressMapMsg)
    (cb : σ → Bytes → σ × Option ε) (s : σ) : σ × Option ε :=
  walkAddressMapAddressesLoop cb msg.addressArray
    (List.range (msg.addressArray.length / addrSize)) s

/-- The child addresses stored in an address-map message, in stored order. -/
def addressMapAddressList (msg : AddressMapMsg) : List Bytes :=
  (List.range (msg.addressArray.length / addrSize)).map (addrChunk msg.addressArray)

/-- Modelled from the spec: the reference walk — visit every child address
exactly once, in stored order, propagating the first visitor error
immediately (fail-fast, no partial continuation). -/
def specVisitAddresses {σ ε : Type} (cb : σ → Bytes → σ × Option ε) :
    List Bytes → σ → σ × Option ε
  | [], s => (s, none)
  | a :: rest, s =>
    match cb s a with
    | (s1, some e) => (s1, some e)
    | (s1, none) => specVisitAddresses cb rest s1

/-- Modelled from the spec: a durable row-storage tree (durable.Index),
abstracted to the ordered list of its key/value entries. -/
structure durableIndex where
  entries : List (Bytes × Bytes)
deriving DecidableEq, Repr

/-- durable.Index.Count: number of entries. -/
def durableIndex.Count (idx : durableIndex) : Nat := idx.entries.length

/-- Modelled from the spec: the empty tree is a dedicated sentinel; a tree is
Empty exactly when it holds no entries. -/
def durableIndex.Empty (idx : durableIndex) : Bool := idx.entries.isEmpty

/-- Modelled from the spec: durable.NewEmptyIndex, the empty-tree sentinel. -/
def emptyIndex : durableIndex := { entries := [] }

/-- MaxRowsPerPartition (32 * 1024). -/
def MaxRowsPerPartition : Nat := 32 * 1024

/-- doltTablePartition: a half-open index range [start, stop) over the row
data (the source field named end is a Lean keyword and is embedded as stop). -/
structure doltTablePartition where
  start : Nat
  stop : Nat
  rowData : durableIndex
deriving DecidableEq, Repr

/-- The local variables itemsPerPartition and numPartitions of
partitionsFromTableRows: start from MaxRowsPerPartition; when that would
make fewer than partitionMultiplier * NumCPU partitions, retarget the
partition size to numElements / (2 * nCPU) (falling back to a single
partition when that is zero).  partitionMultiplier = 2.0 times the int
NumCPU is exactly 2 * nCPU. -/
def partitionPlan (nCPU : Nat) (numElements : Nat) : Nat × Nat :=
  if numElements / MaxRowsPerPartition + 1 < 2 * nCPU then
    if numElements / (2 * nCPU) = 0 then (numElements, 1)
    else (numElements / (2 * nCPU),
      numElements / (numElements / (2 * nCPU)) + 1)
  else (MaxRowsPerPartition, numElements / MaxRowsPerPartition + 1)

/-- partitionsFromTableRows: emit numPartitions contiguous ranges of
itemsPerPartition rows each, the last one ending at numElements. -/
def partitionsFromTableRows (nCPU : Nat) (rows : durableIndex) :
    List doltTablePartition :=
  let numElements := rows.Count
  let itemsPerPartition := (partitionPlan nCPU numElements).1
  let numPartitions := (partitionPlan nCPU numElements).2
  ((List.range (numPartitions - 1)).map fun i =>
    { start := i * itemsPerPartition
      stop := (i + 1) * itemsPerPartition
      rowData := rows })
  ++ [{ start := (numPartitions - 1) * itemsPerPartition
        stop := numElements
        rowData := rows }]

/-- partitionsFromRows: an empty row tree yields exactly one empty partition;
otherwise defer to partitionsFromTableRows. -/
def partitionsFromRows (nCPU : Nat) (rows : durableIndex) :
    List doltTablePartition :=
  if rows.Empty then [{ start := 0, stop := 0, rowData := rows }]
  else partitionsFromTableRows nCPU rows

/-- The partitions form a chain of half-open ranges starting at s and ending
at R: each start equals the running bound, each range is nonempty-or-empty
but ordered (start ≤ stop), and the final bound is R. -/
def chainedFrom : Nat → List doltTablePartition → Nat → Prop
  | s, [], R => s = R
  | s, p :: rest, R => p.start = s ∧ p.start ≤ p.stop ∧ chainedFrom p.stop rest R

/-- doltTablePartitionIter: hands out the partitions one at a time.  The
mutex only guards the cursor; the embedding passes the state explicitly. -/
structure doltTablePartitionIter where
  i : Nat
  partitions : List doltTablePartition
deriving DecidableEq, Repr

/-- newDoltTablePartitionIter starts the cursor at 0. -/
def newDoltTablePartitionIter (partitions : List doltTablePartition) :
    doltTablePartitionIter :=
  { i := 0, partitions := partitions }

/-- Close is required by the interface and does nothing: the state is
unchanged and the returned error is nil. -/
def doltTablePartitionIter.Close (itr : doltTablePartitionIter) :
    doltTablePartitionIter × Option String :=
  (itr, none)

/-- Next: io.EOF (none) once the cursor has passed the last partition,
otherwise the partition at the cursor, advancing the cursor. -/
def doltTablePartitionIter.Next (itr : doltTablePartitionIter) :
    doltTablePartitionIter × Option doltTablePartition :=
  if h : itr.partitions.length ≤ itr.i then (itr, none)
  else ({ itr with i := itr.i + 1 },
    some (itr.partitions.get ⟨itr.i, Nat.lt_of_not_le h⟩))

/-- The iterator state after k calls to Next. -/
def stepN (itr : doltTablePartitionIter) : Nat → doltTablePartitionIter
  | 0 => itr
  | k + 1 => ((stepN itr k).Next).1

/-- Modelled from the spec: the schema descriptor, abstracted to what this
slice reads from it — its columns and the names of its secondary indexes
(sch.Indexes().AllIndexes()). -/
structure Schema where
  columns : List String
  indexNames : List String
deriving DecidableEq, Repr

/-- Modelled from the spec: the index-name to index-tree mapping of a table
(durable.IndexSet), as an association list. -/
structure IndexSet where
  m : List (String × durableIndex)
deriving DecidableEq, Repr

/-- Modelled from the spec: PutIndex is a pure functional update of the
name-to-tree mapping. -/
def IndexSet.PutIndex (s : IndexSet) (name : String) (idx : durableIndex) :
    IndexSet :=
  { m := (name, idx) :: s.m.filter fun p => p.1 != name }

/-- Modelled from the spec: GetIndex looks an index tree up by name. -/
def IndexSet.GetIndex (s : IndexSet) (name : String) : Option durableIndex :=
  (s.m.find? fun p => p.1 == name).map Prod.snd

/-- A doltdb.Table value: schema, clustered row tree, secondary index set,
and optional auto-increment state. -/
structure Table where
  sch : Schema
  rows : durableIndex
  indexes : IndexSet
  autoIncVal : Option Nat
deriving DecidableEq, Repr

/-- truncate: build the empty index, map every index named in the schema to
it, and assemble a new table with the given schema, empty row data, the
updated index set, and nil auto-increment value (doltdb.NewTable last
argument nil). -/
def truncate (table : Table) (sch : Schema) : Table :=
  let empty := emptyIndex
  let idxSet := sch.indexNames.foldl
    (fun s name => IndexSet.PutIndex s name empty) table.indexes
  { sch := sch, rows := empty, indexes := idxSet, autoIncVal := none }

/-- WritableDoltTable wraps a table value with its name. -/
structure WritableDoltTable where
  tableName : String
  tbl : Table
deriving DecidableEq, Repr

/-- WritableDoltTable.Truncate: record the prior row count, truncate with the
table's own schema, and return the count together with the new table value
(installing the new value into the root is the caller-side effect outside
this slice). -/
def WritableDoltTable.Truncate (t : WritableDoltTable) : Nat × Table :=
  (t.tbl.rows.Count, truncate t.tbl t.tbl.sch)

/-- The stateful root value, embedded by its per-call GetTableNames results:
the k-th call to GetTableNames returns tableNamesAt k. -/
structure RootValue where
  tableNamesAt : Nat → Except String (List String)

/-- RootValue.GetTableNames with an explicit call counter. -/
def RootValue.GetTableNames (root : RootValue) (calls : Nat) :
    Nat × Except String (List String) :=
  (calls + 1, root.tableNamesAt calls)

/-- DoltNamespace. -/
def DoltNamespace : String := "dolt"

/-- HasDoltPrefix of the source: whether the lowercased name starts with the
dolt namespace. -/
def HasDoltNS (s : String) : Bool :=
  DoltNamespace.isPrefixOf s.toLower

/-- Modelled from the spec: funcitr.FilterStrings. -/
def FilterStrings (l : List String) (f : String → Bool) : List String :=
  l.filter f

/-- Modelled from the spec: funcitr.MapStrings. -/
def MapStrings (l : List String) (f : String → String) : List String :=
  l.map f

/-- Insert a string into a sorted list (helper for sortStrings). -/
def insertSorted (x : String) : List String → List String
  | [] => [x]
  | y :: ys => if x ≤ y then x :: y :: ys else y :: insertSorted x ys

/-- Modelled from the spec: sort.Strings. -/
def sortStrings (l : List String) : List String :=
  l.foldr insertSorted []

/-- Modelled from the spec: adding to a string set ignores duplicates. -/
def strSetAdd (s : List String) (x : String) : List String :=
  if s.contains x then s else s ++ [x]

/-- Modelled from the spec: set.NewStrSet. -/
def NewStrSet (l : List String) : List String :=
  l.foldl strSetAdd []

/-- Add every element of a list to a string set (StrSet.Add varargs). -/
def strSetAddAll (s : List String) (l : List String) : List String :=
  l.foldl strSetAdd s

/-- The generatedSystemTables names of the source. -/
def generatedSystemTables : List String :=
  ["dolt_branches", "dolt_log", "dolt_conflicts",
   "dolt_constraint_violations", "dolt_commits", "dolt_commit_ancestors",
   "dolt_status", "dolt_remotes"]

/-- The generatedSystemTablePrefixes of the source. -/
def generatedSystemTablePrefixes : List String :=
  ["dolt_diff_", "dolt_commit_diff_", "dolt_history_",
   "dolt_conflicts_", "dolt_constraint_violations_"]

/-- GetPersistedSystemTables: list the root's table names (first sub-call),
sort them, and keep the dolt-namespace ones.  The error of the sub-call is
returned. -/
def GetPersistedSystemTables (root : RootValue) (calls : Nat) :
    Nat × Except String (List String) :=
  let r := RootValue.GetTableNames root calls
  match r.2 with
  | .error e => (r.1, .error e)
  | .ok tn => (r.1, .ok (FilterStrings (sortStrings tn) HasDoltNS))

/-- GetGeneratedSystemTables: the fixed generated names plus every prefix
applied to every table name of the root (second sub-call).  The error of the
sub-call is returned. -/
def GetGeneratedSystemTables (root : RootValue) (calls : Nat) :
    Nat × Except String (List String) :=
  let s0 := NewStrSet generatedSystemTables
  let r := RootValue.GetTableNames root calls
  match r.2 with
  | .error e => (r.1, .error e)
  | .ok tn =>
    (r.1, .ok (generatedSystemTablePrefixes.foldl
      (fun s pre => strSetAddAll s (MapStrings tn fun t => pre ++ t)) s0))

/-- GetSystemTableNames as written in the source: the error of the first
sub-call is returned, but the error check of the second sub-call has an
empty body, so that error is discarded and the zero value (nil slice) of g
is appended instead. -/
def GetSystemTableNames (root : RootValue) (calls : Nat) :
    Nat × Except String (List String) :=
  let pr := GetPersistedSystemTables root calls
  match pr.2 with
  | .error e => (pr.1, .error e)
  | .ok p =>
    let gr := GetGeneratedSystemTables root pr.1
    let g := match gr.2 with
      | .error _ => []
      | .ok names => names
    (gr.1, .ok (sortStrings (p ++ g)))

/-- Concrete example keys for witnesses. -/
def exKeys : List Bytes := [[1], [2, 3]]

/-- Concrete example addresses (20 bytes each) for witnesses. -/
def exAddrs : List Bytes := [List.replicate 20 1, List.replicate 20 2]

/-- Concrete example subtree counts for witnesses. -/
def exSubtrees : List Nat := [3, 200]

/-- Concrete example partitions for the iterator witness. -/
def exParts : List doltTablePartition :=
  [{ start := 0, stop := 5, rowData := emptyIndex },
   { start := 5, stop := 9, rowData := emptyIndex }]

/-- Concrete example table for the truncate witness. -/
def exTable : WritableDoltTable :=
  { tableName := "t"
    tbl := { sch := { columns := ["id"], indexNames := ["idx_a"] }
             rows := { entries := [([1], [2]), ([3], [4])] }
             indexes := { m := [("idx_a", { entries := [([5], [6])] })] }
             autoIncVal := some 7 } }

/-- A root value whose first GetTableNames call succeeds and whose second
call fails with a storage error: the failing input for the swallowed-error
bug of GetSystemTableNames. -/
def exRoot : RootValue :=
  { tableNamesAt := fun k =>
      if k = 0 then .ok [] else .error "chunk store unavailable" }

/-! ## Helper lemmas: varint codec -/

theorem readUvarint_putUvarint (x : Nat) (tail : Bytes) :
    readUvarint (putUvarint x ++ tail) = (x, tail) := by
  induction x using Nat.strong_induction_on with
  | _ x ih =>
    by_cases h : x < 128
    · rw [putUvarint]
      simp [h, readUvarint]
    · rw [putUvarint]
      simp only [h, if_false, List.cons_append]
      rw [readUvarint]
      have h2 : ¬ (x % 128 + 128 < 128) := by omega
      simp only [h2, if_false]
      rw [ih (x / 128) (Nat.div_lt_self (by omega) (by omega))]
      simp only [Prod.mk.injEq, Prod.fst, Prod.snd]
      refine ⟨by omega, trivial⟩

theorem decodeVarints_writeCountArray (ss : List Nat) :
    decodeVarints (writeCountArray ss) ss.length = ss := by
  induction ss with
  | nil => rfl
  | cons c rest ih =>
    have hw : writeCountArray (c :: rest) = putUvarint c ++ writeCountArray rest := by
      simp [writeCountArray]
    have hlen : (c :: rest).length = rest.length + 1 := rfl
    rw [hlen, hw, decodeVarints, readUvarint_putUvarint]
    simp [ih]

/-! ## Helper lemmas: packed items and offsets -/

theorem sumLens_append (a b : List Bytes) :
    sumLens (a ++ b) = sumLens a + sumLens b := by
  simp [sumLens]

theorem sumLens_take_le (ks : List Bytes) (i : Nat) :
    sumLens (ks.take i) ≤ sumLens ks := by
  conv_rhs => rw [← List.take_append_drop i ks]
  rw [sumLens_append]
  omega

theorem sumLens_take_succ (ks : List Bytes) (i : Nat) (h : i < ks.length) :
    sumLens (ks.take (i + 1)) = sumLens (ks.take i) + ks[i].length := by
  rw [List.take_succ, List.getElem?_eq_getElem h]
  rw [show (some ks[i]).toList = [ks[i]] from rfl]
  rw [sumLens_append]
  simp [sumLens]

theorem flatten_drop_sumLens (ks : List Bytes) (i : Nat) :
    ks.flatten.drop (sumLens (ks.take i)) = (ks.drop i).flatten := by
  have h1 : ks.flatten = (ks.take i).flatten ++ (ks.drop i).flatten := by
    rw [← List.flatten_append, List.take_append_drop]
  rw [h1]
  have hl : sumLens (ks.take i) = (ks.take i).flatten.length := by
    rw [List.length_flatten]
    rfl
  rw [hl, List.drop_left]

theorem writeItemOffsets_getD (ks : List Bytes) (h : sumLens ks < 65536)
    (j : Nat) (hj : j ≤ ks.length) :
    (writeItemOffsets ks).getD j 0 = sumLens (ks.take j) := by
  have hjlen : j < (writeItemOffsets ks).length := by
    simp [writeItemOffsets]
    omega
  rw [List.getD_eq_getElem _ _ hjlen]
  simp only [writeItemOffsets, List.getElem_map, List.getElem_range]
  exact Nat.mod_eq_of_lt (lt_of_le_of_lt (sumLens_take_le ks j) h)

theorem getItem_pack (ks : List Bytes) (h : sumLens ks < 65536)
    (i : Nat) (hi : i < ks.length) :
    ItemArray.getItem { Items := writeItemBytes ks, Offs := writeItemOffsets ks } i
      = ks[i] := by
  unfold ItemArray.getItem writeItemBytes
  simp only
  rw [writeItemOffsets_getD ks h i (le_of_lt hi),
    writeItemOffsets_getD ks h (i + 1) hi,
    sumLens_take_succ ks i hi, flatten_drop_sumLens,
    List.drop_eq_getElem_cons hi, List.flatten_cons]
  have h3 : sumLens (ks.take i) + ks[i].length - sumLens (ks.take i)
      = ks[i].length := by omega
  rw [h3, List.take_left]

theorem items_pack (ks : List Bytes) (h : sumLens ks < 65536) :
    ItemArray.items { Items := writeItemBytes ks, Offs := writeItemOffsets ks }
      = ks := by
  unfold ItemArray.items ItemArray.count
  simp only
  have hc : (writeItemOffsets ks).length - 1 = ks.length := by
    simp [writeItemOffsets]
  rw [hc]
  apply List.ext_getElem
  · simp
  · intro i h1 h2
    simp only [List.getElem_map, List.getElem_range]
    exact getItem_pack ks h i h2

theorem sumLens_const (l : List Bytes) (c : Nat)
    (hc : ∀ a ∈ l, a.length = c) (i : Nat) (hi : i ≤ l.length) :
    sumLens (l.take i) = i * c := by
  unfold sumLens
  rw [List.sum_eq_card_nsmul _ c]
  · rw [List.length_map, List.length_take]
    have hmin : i ⊓ l.length = i := inf_eq_left.mpr hi
    rw [hmin, smul_eq_mul]
  · intro x hx
    simp only [List.mem_map] at hx
    obtain ⟨a, ha, rfl⟩ := hx
    exact hc a (List.mem_of_mem_take ha)

theorem offsetsForAddressArray_pack (addrs : List Bytes)
    (ha : ∀ a ∈ addrs, a.length = addrSize) :
    offsetsForAddressArray (writeItemBytes addrs) = writeItemOffsets addrs := by
  have hlen : (writeItemBytes addrs).length = addrs.length * addrSize := by
    rw [writeItemBytes, List.length_flatten]
    have := sumLens_const addrs addrSize ha addrs.length (le_refl _)
    rw [List.take_length] at this
    exact this
  have hdiv : (writeItemBytes addrs).length / addrSize = addrs.length := by
    rw [hlen]
    exact Nat.mul_div_cancel _ (by norm_num [addrSize])
  unfold offsetsForAddressArray writeItemOffsets
  rw [hdiv]
  apply List.map_congr_left
  intro i hi
  simp only [List.mem_range] at hi
  rw [sumLens_const addrs addrSize ha i (by omega)]

/-- On equal-length inputs the serializer succeeds and produces exactly the
record of regions written by the source. -/
theorem serialize_some (keys addrs : List Bytes) (subtrees : List Nat) (level : Nat)
    (h : keys.length = addrs.length) :
    AddressMapSerializer.Serialize keys addrs subtrees level =
      some { keyItems := writeItemBytes keys
             keyOffsets := writeItemOffsets keys
             addressArray := writeItemBytes addrs
             subtreeCounts := if level > 0 then writeCountArray subtrees else []
             treeCount := if level > 0 then sumSubtrees subtrees else keys.length
             treeLevel := level % 256 } := by
  simp [AddressMapSerializer.Serialize, estimateAddressMapSize, h]

theorem sumLens_of_const (addrs : List Bytes)
    (ha : ∀ a ∈ addrs, a.length = addrSize) :
    sumLens addrs = addrs.length * addrSize := by
  have h := sumLens_const addrs addrSize ha addrs.length (le_refl _)
  rwa [List.take_length] at h

/-- C1: round trip of the address-map codec — decoding the serialized message
yields the original keys, addresses, subtree counts (at internal levels), and
level.  The hypotheses delimit the domain of the binary format: addresses are
20-byte hashes, byte offsets fit the 2-byte offset entries, the level fits
its uint8 field, and subtree counts are uint64 values. -/
theorem amRoundTrip (keys addrs : List Bytes) (subtrees : List Nat) (level : Nat)
    (hlen : keys.length = addrs.length)
    (hsub : subtrees.length = keys.length)
    (haddr : ∀ a ∈ addrs, a.length = addrSize)
    (hkeysz : sumLens keys < 65536)
    (haddrsz : addrSize * keys.length < 65536)
    (hlevel : level < 256)
    (_hcard : ∀ c ∈ subtrees, c < 18446744073709551616) :
    ∀ msg, AddressMapSerializer.Serialize keys addrs subtrees level = some msg →
      (getAddressMapKeys msg).items = keys
      ∧ (getAddressMapValues msg).items = addrs
      ∧ (0 < level → getAddressMapSubtrees msg = subtrees)
      ∧ getAddressMapTreeLevel msg = level := by
  intro msg hS
  rw [serialize_some keys addrs subtrees level hlen] at hS
  injection hS with hS
  subst hS
  have hn : keys.length < 65536 := by
    have : keys.length ≤ addrSize * keys.length := by
      have : 1 * keys.length ≤ addrSize * keys.length :=
        Nat.mul_le_mul_right _ (by norm_num [addrSize])
      simpa using this
    omega
  refine ⟨?_, ?_, ?_, ?_⟩
  · exact items_pack keys hkeysz
  · show ItemArray.items
      { Items := writeItemBytes addrs
        Offs := offsetsForAddressArray (writeItemBytes addrs) } = addrs
    rw [offsetsForAddressArray_pack addrs haddr]
    apply items_pack
    rw [sumLens_of_const addrs haddr, ← hlen, Nat.mul_comm]
    exact haddrsz
  · intro hpos
    show decodeVarints
      (if level > 0 then writeCountArray subtrees else [])
      (((writeItemOffsets keys).length - 1) % 65536) = subtrees
    rw [if_pos hpos]
    have hcnt : ((writeItemOffsets keys).length - 1) % 65536 = subtrees.length := by
      simp [writeItemOffsets]
      rw [hsub]
      exact Nat.mod_eq_of_lt hn
    rw [hcnt]
    exact decodeVarints_writeCountArray subtrees
  · show level % 256 = level
    exact Nat.mod_eq_of_lt hlevel

/-- C1 witness: the round trip evaluated at a concrete two-entry internal
node. -/
theorem amRoundTrip_witness :
    (AddressMapSerializer.Serialize exKeys exAddrs exSubtrees 1).map
      (fun m => ((getAddressMapKeys m).items, (getAddressMapValues m).items,
        getAddressMapSubtrees m, getAddressMapTreeLevel m))
      = some (exKeys, exAddrs, exSubtrees, 1) := by
  cases hS : AddressMapSerializer.Serialize exKeys exAddrs exSubtrees 1 with
  | none => exact absurd hS (by decide)
  | some m =>
    have h := amRoundTrip exKeys exAddrs exSubtrees 1 (by decide) (by decide)
      (by decide) (by decide) (by decide) (by decide) (by decide) m hS
    simp [h.1, h.2.1, h.2.2.1 Nat.one_pos, h.2.2.2]

/-- C4: the recorded tree count is the sum of the subtree counts at internal
levels (with the per-child counts recorded and recoverable), and the number
of keys at level 0 with no subtree-count region written;
getAddressMapTreeCount returns the recorded total. -/
theorem amTreeCountRecorded (keys addrs : List Bytes) (subtrees : List Nat)
    (level : Nat)
    (hlen : keys.length = addrs.length)
    (hsub : subtrees.length = keys.length)
    (hn : keys.length < 65536)
    (hsum : subtrees.sum < 18446744073709551616) :
    ∀ msg, AddressMapSerializer.Serialize keys addrs subtrees level = some msg →
      (0 < level →
        getAddressMapTreeCount msg = subtrees.sum
        ∧ msg.subtreeCounts = writeCountArray subtrees
        ∧ getAddressMapSubtrees msg = subtrees)
      ∧ (level = 0 →
        getAddressMapTreeCount msg = keys.length
        ∧ msg.subtreeCounts = []) := by
  intro msg hS
  rw [serialize_some keys addrs subtrees level hlen] at hS
  injection hS with hS
  subst hS
  constructor
  · intro hpos
    refine ⟨?_, ?_, ?_⟩
    · show (if level > 0 then sumSubtrees subtrees else keys.length) = subtrees.sum
      rw [if_pos hpos, sumSubtrees]
      exact Nat.mod_eq_of_lt hsum
    · show (if level > 0 then writeCountArray subtrees else []) = writeCountArray subtrees
      rw [if_pos hpos]
    · show decodeVarints
        (if level > 0 then writeCountArray subtrees else [])
        (((writeItemOffsets keys).length - 1) % 65536) = subtrees
      rw [if_pos hpos]
      have hcnt : ((writeItemOffsets keys).length - 1) % 65536 = subtrees.length := by
        simp [writeItemOffsets]
        rw [hsub]
        exact Nat.mod_eq_of_lt hn
      rw [hcnt]
      exact decodeVarints_writeCountArray subtrees
  · intro hzero
    subst hzero
    exact ⟨rfl, rfl⟩

/-- C4 witness: the tree count at a concrete internal node and a concrete
leaf node. -/
theorem amTreeCountRecorded_witness :
    ((AddressMapSerializer.Serialize exKeys exAddrs exSubtrees 1).map
      (fun m => (getAddressMapTreeCount m, m.subtreeCounts, getAddressMapSubtrees m))
      = some (203, writeCountArray exSubtrees, exSubtrees))
    ∧ ((AddressMapSerializer.Serialize exKeys exAddrs exSubtrees 0).map
      (fun m => (getAddressMapTreeCount m, m.subtreeCounts))
      = some (2, [])) := by
  constructor
  · cases hS : AddressMapSerializer.Serialize exKeys exAddrs exSubtrees 1 with
    | none => exact absurd hS (by decide)
    | some m =>
      have h := (amTreeCountRecorded exKeys exAddrs exSubtrees 1 (by decide)
        (by decide) (by decide) (by decide) m hS).1 Nat.one_pos
      simp [h.1, h.2.1, h.2.2]
      decide
  · cases hS : AddressMapSerializer.Serialize exKeys exAddrs exSubtrees 0 with
    | none => exact absurd hS (by decide)
    | some m =>
      have h := (amTreeCountRecorded exKeys exAddrs exSubtrees 0 (by decide)
        (by decide) (by decide) (by decide) m hS).2 rfl
      simp [h.1, h.2]
      decide

/-- C5: the key-offsets vector of a serialized message has exactly
len(keys) + 1 entries; getAddressMapCount recovers the number of key/address
pairs (the uint16 field requires it to fit); and the offsets are the prefix
sums, so the i-th key is the slice Items[Offs[i] : Offs[i+1]] whenever the
key bytes fit the 2-byte offsets. -/
theorem amOffsetsAndCount (keys addrs : List Bytes) (subtrees : List Nat)
    (level : Nat) (hlen : keys.length = addrs.length) :
    ∀ msg, AddressMapSerializer.Serialize keys addrs subtrees level = some msg →
      msg.keyOffsets.length = keys.length + 1
      ∧ (keys.length < 65536 → getAddressMapCount msg = keys.length)
      ∧ (sumLens keys < 65536 → ∀ i (hi : i < keys.length),
          (getAddressMapKeys msg).getItem i = keys[i]) := by
  intro msg hS
  rw [serialize_some keys addrs subtrees level hlen] at hS
  injection hS with hS
  subst hS
  refine ⟨?_, ?_, ?_⟩
  · simp [writeItemOffsets]
  · intro hn
    show ((writeItemOffsets keys).length - 1) % 65536 = keys.length
    simp [writeItemOffsets]
    omega
  · intro hsz i hi
    exact getItem_pack keys hsz i hi

/-- C5 witness: offsets length, count, and item slicing at a concrete
message. -/
theorem amOffsetsAndCount_witness :
    (AddressMapSerializer.Serialize exKeys exAddrs exSubtrees 1).map
      (fun m => (m.keyOffsets.length, getAddressMapCount m,
        (getAddressMapKeys m).getItem 1))
      = some (3, 2, [2, 3]) := by
  cases hS : AddressMapSerializer.Serialize exKeys exAddrs exSubtrees 1 with
  | none => exact absurd hS (by decide)
  | some m =>
    have h := amOffsetsAndCount exKeys exAddrs exSubtrees 1 (by decide) m hS
    have h1 := h.1
    have h2 := h.2.1 (by decide)
    have h3 := h.2.2 (by decide) 1 (by decide)
    simp [h1, h2, h3]
    decide

/-- C9: the implicit precondition of the serializer — equal key and address
counts make the assertion-failure branch unreachable and Serialize produces
a message, while unequal counts trigger the assertion failure (embedded as
none) instead of a well-formed message. -/
theorem amSerializeLengthAssert (keys addrs : List Bytes) (subtrees : List Nat)
    (level : Nat) :
    (keys.length = addrs.length →
      (estimateAddressMapSize keys addrs subtrees).isSome = true
      ∧ (AddressMapSerializer.Serialize keys addrs subtrees level).isSome = true)
    ∧ (keys.length ≠ addrs.length →
      estimateAddressMapSize keys addrs subtrees = none
      ∧ AddressMapSerializer.Serialize keys addrs subtrees level = none) := by
  constructor
  · intro h
    rw [serialize_some keys addrs subtrees level h]
    simp [estimateAddressMapSize, h]
  · intro h
    have he : estimateAddressMapSize keys addrs subtrees = none := by
      simp [estimateAddressMapSize, h]
    refine ⟨he, ?_⟩
    simp [AddressMapSerializer.Serialize, he]

/-- C9 witness: equal lengths serialize, unequal lengths hit the assertion. -/
theorem amSerializeLengthAssert_witness :
    (AddressMapSerializer.Serialize exKeys exAddrs exSubtrees 1).isSome = true
    ∧ AddressMapSerializer.Serialize exKeys [] exSubtrees 1 = none := by
  constructor
  · exact ((amSerializeLengthAssert exKeys exAddrs exSubtrees 1).1 (by decide)).2
  · exact ((amSerializeLengthAssert exKeys [] exSubtrees 1).2 (by decide)).2

/-- C3: the address walk refines the reference visit — it invokes the
callback exactly once per child address stored in the message, in stored
order, stops at the first error and returns it, and returns success when no
invocation errs.  The effectful callback is embedded with explicit state
passing, so the equality also pins down exactly which invocations happen. -/
theorem walkAddressesFailFast {σ ε : Type} (msg : AddressMapMsg)
    (cb : σ → Bytes → σ × Option ε) (s : σ) :
    walkAddressMapAddresses msg cb s
      = specVisitAddresses cb (addressMapAddressList msg) s := by
  unfold walkAddressMapAddresses addressMapAddressList
  generalize List.range (msg.addressArray.length / addrSize) = idxs
  induction idxs generalizing s with
  | nil => rfl
  | cons i rest ih =>
    rw [List.map_cons]
    rw [walkAddressMapAddressesLoop, specVisitAddresses]
    cases h : cb s (addrChunk msg.addressArray i) with
    | mk s1 r =>
      cases r with
      | none => exact ih s1
      | some e => rfl

/-! ## Helper lemmas: partition chains -/

theorem chainedFrom_le (s : Nat) (ps : List doltTablePartition) (R : Nat)
    (h : chainedFrom s ps R) : s ≤ R := by
  induction ps generalizing s with
  | nil => exact le_of_eq h
  | cons p rest ih =>
    obtain ⟨h1, h2, h3⟩ := h
    calc s = p.start := h1.symm
    _ ≤ p.stop := h2
    _ ≤ R := ih p.stop h3

theorem chainedFrom_append (s m R : Nat) (xs ys : List doltTablePartition)
    (hx : chainedFrom s xs m) (hy : chainedFrom m ys R) :
    chainedFrom s (xs ++ ys) R := by
  induction xs generalizing s with
  | nil =>
    rw [List.nil_append]
    have hsm : s = m := hx
    rw [hsm]
    exact hy
  | cons p rest ih =>
    obtain ⟨h1, h2, h3⟩ := hx
    exact ⟨h1, h2, ih p.stop h3⟩

theorem chainedFrom_blocks (rows : durableIndex) (ipp : Nat) (k : Nat) :
    chainedFrom 0 ((List.range k).map fun i =>
      { start := i * ipp, stop := (i + 1) * ipp, rowData := rows }) (k * ipp) := by
  induction k with
  | zero => simp [chainedFrom]
  | succ k ih =>
    rw [List.range_succ, List.map_append]
    apply chainedFrom_append 0 (k * ipp) _ _ _ ih
    refine ⟨rfl, Nat.mul_le_mul_right _ (Nat.le_succ k), ?_⟩
    show (k + 1) * ipp = (k + 1) * ipp
    rfl

theorem chainedFrom_blocksWithLast (rows : durableIndex) (ipp R np : Nat)
    (h : (np - 1) * ipp ≤ R) :
    chainedFrom 0 (((List.range (np - 1)).map fun i =>
      { start := i * ipp, stop := (i + 1) * ipp, rowData := rows })
      ++ [{ start := (np - 1) * ipp, stop := R, rowData := rows }]) R := by
  apply chainedFrom_append 0 ((np - 1) * ipp) R _ _
    (chainedFrom_blocks rows ipp (np - 1))
  exact ⟨rfl, h, rfl⟩

theorem partitionPlan_last_le (nCPU : Nat) (R : Nat) :
    ((partitionPlan nCPU R).2 - 1) * (partitionPlan nCPU R).1 ≤ R := by
  unfold partitionPlan
  split_ifs with h1 h2
  · simp
  · simp only
    rw [Nat.add_sub_cancel]
    exact Nat.div_mul_le_self R (R / (2 * nCPU))
  · simp only
    rw [Nat.add_sub_cancel]
    exact Nat.div_mul_le_self R MaxRowsPerPartition

theorem partitionPlan_pos (nCPU : Nat) (R : Nat) :
    1 ≤ (partitionPlan nCPU R).2 := by
  unfold partitionPlan
  split_ifs <;> simp

theorem partitionsFromTableRows_chained (nCPU : Nat) (rows : durableIndex) :
    chainedFrom 0 (partitionsFromTableRows nCPU rows) rows.Count := by
  unfold partitionsFromTableRows
  exact chainedFrom_blocksWithLast rows _ rows.Count _
    (partitionPlan_last_le nCPU rows.Count)

theorem chainedFrom_covers (ps : List doltTablePartition) (s R : Nat)
    (h : chainedFrom s ps R) (x : Nat) :
    (s ≤ x ∧ x < R) ↔ ∃ p ∈ ps, p.start ≤ x ∧ x < p.stop := by
  induction ps generalizing s with
  | nil =>
    have hsR : s = R := h
    constructor
    · rintro ⟨h1, h2⟩
      omega
    · rintro ⟨p, hp, _⟩
      exact absurd hp (List.not_mem_nil p)
  | cons p rest ih =>
    obtain ⟨h1, h2, h3⟩ := h
    have hstopR : p.stop ≤ R := chainedFrom_le _ _ _ h3
    have ihx := ih p.stop h3
    subst h1
    constructor
    · rintro ⟨hx1, hx2⟩
      by_cases hx3 : x < p.stop
      · exact ⟨p, List.mem_cons_self p rest, hx1, hx3⟩
      · obtain ⟨q, hq, hq2⟩ := ihx.mp ⟨by omega, hx2⟩
        exact ⟨q, List.mem_cons_of_mem p hq, hq2⟩
    · rintro ⟨q, hq, hq1, hq2⟩
      rcases List.mem_cons.mp hq with rfl | hq3
      · exact ⟨hq1, lt_of_lt_of_le hq2 hstopR⟩
      · have hr := ihx.mpr ⟨q, hq3, hq1, hq2⟩
        exact ⟨le_trans h2 hr.1, hr.2⟩

theorem chainedFrom_mem_start_le (s : Nat) (ps : List doltTablePartition)
    (R : Nat) (h : chainedFrom s ps R) : ∀ q ∈ ps, s ≤ q.start := by
  induction ps generalizing s with
  | nil =>
    intro q hq
    exact absurd hq (List.not_mem_nil q)
  | cons p rest ih =>
    obtain ⟨h1, h2, h3⟩ := h
    intro q hq
    rcases List.mem_cons.mp hq with rfl | hq2
    · omega
    · exact le_trans (h1 ▸ h2) (ih p.stop h3 q hq2)

theorem chainedFrom_pairwise (ps : List doltTablePartition) (s R : Nat)
    (h : chainedFrom s ps R) :
    ps.Pairwise fun p q => p.stop ≤ q.start := by
  induction ps generalizing s with
  | nil => exact List.Pairwise.nil
  | cons p rest ih =>
    obtain ⟨h1, h2, h3⟩ := h
    exact List.Pairwise.cons (chainedFrom_mem_start_le _ _ _ h3) (ih p.stop h3)

theorem durableIndex_empty_iff (rows : durableIndex) :
    rows.Empty = true ↔ rows.Count = 0 := by
  unfold durableIndex.Empty durableIndex.Count
  simp [List.isEmpty_iff_length_eq_zero]

/-- C2: the partitions of partitionsFromRows form a contiguous,
non-overlapping sequence of half-open ranges covering exactly [0, R): each
partition's start equals the previous partition's stop, the first start is 0
and the last stop is R (the chainedFrom proposition), every row position
below R lies in some partition and nothing else does, distinct partitions
are disjoint, and a zero-row table yields exactly one empty partition. -/
theorem partitionsCoverRows (nCPU : Nat) (rows : durableIndex) :
    chainedFrom 0 (partitionsFromRows nCPU rows) rows.Count
    ∧ (∀ x, x < rows.Count ↔
        ∃ p ∈ partitionsFromRows nCPU rows, p.start ≤ x ∧ x < p.stop)
    ∧ (partitionsFromRows nCPU rows).Pairwise (fun p q => p.stop ≤ q.start)
    ∧ (rows.Count = 0 → partitionsFromRows nCPU rows
        = [{ start := 0, stop := 0, rowData := rows }]) := by
  have hch : chainedFrom 0 (partitionsFromRows nCPU rows) rows.Count := by
    unfold partitionsFromRows
    by_cases hE : rows.Empty = true
    · rw [if_pos hE]
      have h0 : rows.Count = 0 := (durableIndex_empty_iff rows).mp hE
      exact ⟨rfl, le_refl 0, h0.symm⟩
    · rw [if_neg hE]
      exact partitionsFromTableRows_chained nCPU rows
  refine ⟨hch, ?_, chainedFrom_pairwise _ _ _ hch, ?_⟩
  · intro x
    have h := chainedFrom_covers _ _ _ hch x
    simpa using h
  · intro h0
    unfold partitionsFromRows
    rw [if_pos ((durableIndex_empty_iff rows).mpr h0)]

/-- C2 witness: the zero-row case evaluated concretely through the claim
theorem. -/
theorem partitionsCoverRows_witness :
    partitionsFromRows 4 emptyIndex
      = [{ start := 0, stop := 0, rowData := emptyIndex }] :=
  (partitionsCoverRows 4 emptyIndex).2.2.2 rfl

theorem partitionsFromTableRows_length (nCPU : Nat) (rows : durableIndex) :
    (partitionsFromTableRows nCPU rows).length
      = (partitionPlan nCPU rows.Count).2 := by
  unfold partitionsFromTableRows
  simp only [List.length_append, List.length_map, List.length_range,
    List.length_cons, List.length_nil]
  have h := partitionPlan_pos nCPU rows.Count
  omega

/-- C7: partition-count policy.  A non-empty table whose row count is below
2 * NumCPU yields exactly one partition covering [0, R).  A table with at
least 2 * NumCPU rows yields at least 2 * NumCPU partitions; and when the
MaxRowsPerPartition split would produce fewer than 2 * NumCPU partitions the
count is retargeted to R / (R / (2 * NumCPU)) + 1, which lies strictly above
2 * NumCPU and at most 4 * NumCPU — proportional to the available
parallelism, targeting about twice the worker count. -/
theorem partitionCountPolicy (nCPU : Nat) (rows : durableIndex) :
    (0 < rows.Count → rows.Count < 2 * nCPU →
      partitionsFromTableRows nCPU rows
        = [{ start := 0, stop := rows.Count, rowData := rows }])
    ∧ (2 * nCPU ≤ rows.Count →
      2 * nCPU ≤ (partitionsFromTableRows nCPU rows).length)
    ∧ (2 * nCPU ≤ rows.Count →
      rows.Count / MaxRowsPerPartition + 1 < 2 * nCPU →
      (partitionsFromTableRows nCPU rows).length
        = rows.Count / (rows.Count / (2 * nCPU)) + 1
      ∧ 2 * nCPU < (partitionsFromTableRows nCPU rows).length
      ∧ (partitionsFromTableRows nCPU rows).length ≤ 4 * nCPU) := by
  refine ⟨?_, ?_, ?_⟩
  · intro hpos hsmall
    have hcond : rows.Count / MaxRowsPerPartition + 1 < 2 * nCPU := by
      unfold MaxRowsPerPartition
      omega
    have hplan : partitionPlan nCPU rows.Count = (rows.Count, 1) := by
      unfold partitionPlan
      rw [if_pos hcond, if_pos (Nat.div_eq_of_lt hsmall)]
    unfold partitionsFromTableRows
    simp only [hplan]
    simp
  · intro hbig
    rw [partitionsFromTableRows_length]
    rcases Nat.eq_zero_or_pos nCPU with hz | hp
    · subst hz
      simp
    · have h2n : 0 < 2 * nCPU := by omega
      unfold partitionPlan
      split_ifs with h1 h2
      · exfalso
        rw [Nat.div_eq_zero_iff (by omega)] at h2
        omega
      · simp only
        have hq : 0 < rows.Count / (2 * nCPU) := Nat.pos_of_ne_zero h2
        have hge : 2 * nCPU ≤ rows.Count / (rows.Count / (2 * nCPU)) := by
          rw [Nat.le_div_iff_mul_le hq]
          calc 2 * nCPU * (rows.Count / (2 * nCPU))
              = rows.Count / (2 * nCPU) * (2 * nCPU) := Nat.mul_comm _ _
          _ ≤ rows.Count := Nat.div_mul_le_self _ _
        omega
      · simp only
        omega
  · intro hbig hcond
    have h2n : 2 ≤ 2 * nCPU := Nat.lt_of_le_of_lt (Nat.le_add_left 1 _) hcond
    have hq : 0 < rows.Count / (2 * nCPU) := by
      rw [Nat.pos_iff_ne_zero]
      intro hz
      rw [Nat.div_eq_zero_iff (by omega)] at hz
      omega
    have hplan : partitionPlan nCPU rows.Count
        = (rows.Count / (2 * nCPU),
           rows.Count / (rows.Count / (2 * nCPU)) + 1) := by
      unfold partitionPlan
      rw [if_pos hcond, if_neg (Nat.pos_iff_ne_zero.mp hq)]
    have hlen : (partitionsFromTableRows nCPU rows).length
        = rows.Count / (rows.Count / (2 * nCPU)) + 1 := by
      rw [partitionsFromTableRows_length, hplan]
    have hge : 2 * nCPU ≤ rows.Count / (rows.Count / (2 * nCPU)) := by
      rw [Nat.le_div_iff_mul_le hq]
      calc 2 * nCPU * (rows.Count / (2 * nCPU))
          = rows.Count / (2 * nCPU) * (2 * nCPU) := Nat.mul_comm _ _
      _ ≤ rows.Count := Nat.div_mul_le_self _ _
    have hub : rows.Count / (rows.Count / (2 * nCPU)) ≤ 4 * nCPU - 1 := by
      have hdm : rows.Count / (2 * nCPU) * (2 * nCPU) + rows.Count % (2 * nCPU)
          = rows.Count := Nat.div_add_mod' _ _
      have hmlt : rows.Count % (2 * nCPU) < 2 * nCPU := Nat.mod_lt _ (by omega)
      have hle : rows.Count
          ≤ 2 * nCPU - 1 + rows.Count / (2 * nCPU) * (2 * nCPU) := by omega
      calc rows.Count / (rows.Count / (2 * nCPU))
          ≤ (2 * nCPU - 1 + rows.Count / (2 * nCPU) * (2 * nCPU))
              / (rows.Count / (2 * nCPU)) := Nat.div_le_div_right hle
      _ = (2 * nCPU - 1) / (rows.Count / (2 * nCPU)) + 2 * nCPU :=
            Nat.add_mul_div_left _ _ hq
      _ ≤ 2 * nCPU - 1 + 2 * nCPU := by
            have hds := Nat.div_le_self (2 * nCPU - 1) (rows.Count / (2 * nCPU))
            omega
      _ ≤ 4 * nCPU - 1 := by omega
    rw [hlen]
    omega

/-- C7 witness: one partition for a 3-row table on 2 CPUs; the retargeted
count for an 8-row table on 1 CPU. -/
theorem partitionCountPolicy_witness :
    partitionsFromTableRows 2 { entries := [([0], [0]), ([1], [1]), ([2], [2])] }
      = [{ start := 0, stop := 3,
           rowData := { entries := [([0], [0]), ([1], [1]), ([2], [2])] } }]
    ∧ (partitionsFromTableRows 1
        { entries := [([0],[0]),([1],[1]),([2],[2]),([3],[3]),
                      ([4],[4]),([5],[5]),([6],[6]),([7],[7])] }).length = 3 := by
  constructor
  · exact (partitionCountPolicy 2 _).1 (by decide) (by decide)
  · have h := ((partitionCountPolicy 1
      { entries := [([0],[0]),([1],[1]),([2],[2]),([3],[3]),
                    ([4],[4]),([5],[5]),([6],[6]),([7],[7])] }).2.2
      (by decide) (by decide)).1
    rw [h]
    decide

/-! ## Helper lemmas: index sets and truncation -/

theorem find?_filter_of_imp {α : Type} (pr keep : α → Bool) (l : List α)
    (h : ∀ x, pr x = true → keep x = true) :
    (l.filter keep).find? pr = l.find? pr := by
  induction l with
  | nil => rfl
  | cons a l ih =>
    by_cases hpa : pr a = true
    · rw [List.filter_cons_of_pos (h a hpa), List.find?_cons_of_pos _ hpa,
        List.find?_cons_of_pos _ hpa]
    · by_cases hk : keep a = true
      · rw [List.filter_cons_of_pos hk, List.find?_cons_of_neg _ (by simp [hpa]),
          List.find?_cons_of_neg _ (by simp [hpa]), ih]
      · rw [List.filter_cons_of_neg (by simp [hk]),
          List.find?_cons_of_neg _ (by simp [hpa]), ih]

theorem getIndex_putIndex_same (s : IndexSet) (name : String)
    (idx : durableIndex) :
    (s.PutIndex name idx).GetIndex name = some idx := by
  unfold IndexSet.PutIndex IndexSet.GetIndex
  simp

theorem getIndex_putIndex_other (s : IndexSet) (name other : String)
    (idx : durableIndex) (h : other ≠ name) :
    (s.PutIndex name idx).GetIndex other = s.GetIndex other := by
  unfold IndexSet.PutIndex IndexSet.GetIndex
  rw [List.find?_cons_of_neg _ (by simp; exact fun he => absurd he.symm h)]
  rw [find?_filter_of_imp]
  intro x hx
  simp only [beq_iff_eq] at hx
  simp [hx]
  exact h

theorem getIndex_foldl_not_mem (l : List String) (s : IndexSet) (name : String)
    (h : name ∉ l) :
    (l.foldl (fun acc n => acc.PutIndex n emptyIndex) s).GetIndex name
      = s.GetIndex name := by
  induction l generalizing s with
  | nil => rfl
  | cons a l ih =>
    rw [List.foldl_cons]
    have h2 : name ∉ l := fun hm => h (List.mem_cons_of_mem a hm)
    have h1 : name ≠ a := fun he => h (he ▸ List.mem_cons_self a l)
    rw [ih _ h2, getIndex_putIndex_other _ _ _ _ h1]

theorem getIndex_foldl_mem (l : List String) (s : IndexSet) (name : String)
    (h : name ∈ l) :
    (l.foldl (fun acc n => acc.PutIndex n emptyIndex) s).GetIndex name
      = some emptyIndex := by
  induction l generalizing s with
  | nil => exact absurd h (List.not_mem_nil name)
  | cons a l ih =>
    rw [List.foldl_cons]
    by_cases hm : name ∈ l
    · exact ih _ hm
    · have hna : name = a := by
        rcases List.mem_cons.mp h with h1 | h2
        · exact h1
        · exact absurd h2 hm
      subst hna
      rw [getIndex_foldl_not_mem l _ name hm, getIndex_putIndex_same]

/-- C6: the frame effect of Truncate — the produced table value has the
empty row tree, maps every index named in the schema to the empty index,
keeps the schema (Truncate passes the table's own schema to truncate), and
resets the auto-increment state to absent; the returned count is the number
of rows the table held before truncation. -/
theorem truncateFrameEffect (t : WritableDoltTable) :
    (WritableDoltTable.Truncate t).2.rows = emptyIndex
    ∧ (∀ name ∈ t.tbl.sch.indexNames,
        (WritableDoltTable.Truncate t).2.indexes.GetIndex name
          = some emptyIndex)
    ∧ (WritableDoltTable.Truncate t).2.sch = t.tbl.sch
    ∧ (WritableDoltTable.Truncate t).2.autoIncVal = none
    ∧ (WritableDoltTable.Truncate t).1 = t.tbl.rows.Count := by
  refine ⟨rfl, ?_, rfl, rfl, rfl⟩
  intro name hname
  exact getIndex_foldl_mem _ _ _ hname

/-- C6 witness: truncation of a concrete two-row table with one secondary
index and a set auto-increment value. -/
theorem truncateFrameEffect_witness :
    (WritableDoltTable.Truncate exTable).2.rows = emptyIndex
    ∧ (WritableDoltTable.Truncate exTable).2.indexes.GetIndex "idx_a"
        = some emptyIndex
    ∧ (WritableDoltTable.Truncate exTable).2.sch = exTable.tbl.sch
    ∧ (WritableDoltTable.Truncate exTable).2.autoIncVal = none
    ∧ (WritableDoltTable.Truncate exTable).1 = 2 := by
  have h := truncateFrameEffect exTable
  refine ⟨h.1, h.2.1 "idx_a" (by decide), h.2.2.1, h.2.2.2.1, ?_⟩
  rw [h.2.2.2.2]
  decide

/-! ## Helper lemmas: the partition iterator -/

theorem stepN_newIter (ps : List doltTablePartition) (k : Nat) :
    stepN (newDoltTablePartitionIter ps) k
      = { i := min k ps.length, partitions := ps } := by
  induction k with
  | zero => simp [stepN, newDoltTablePartitionIter]
  | succ k ih =>
    rw [stepN, ih]
    unfold doltTablePartitionIter.Next
    by_cases h : ps.length ≤ min k ps.length
    · rw [dif_pos h]
      simp only
      congr 1
      omega
    · rw [dif_neg h]
      simp only
      congr 1
      omega

/-- C10: iterator exhaustion — after k calls to Next on a fresh iterator over
n partitions, the next call returns partition k when k < n (so the first n
calls return the n partitions in index order, each exactly once) and io.EOF
(none) for every k ≥ n; Close changes nothing and reports no error. -/
theorem partitionIterExhaustion (ps : List doltTablePartition) (k : Nat) :
    (∀ h : k < ps.length,
      ((stepN (newDoltTablePartitionIter ps) k).Next).2 = some (ps.get ⟨k, h⟩))
    ∧ (ps.length ≤ k →
      ((stepN (newDoltTablePartitionIter ps) k).Next).2 = none)
    ∧ (∀ itr : doltTablePartitionIter, itr.Close = (itr, none)) := by
  refine ⟨?_, ?_, fun itr => rfl⟩
  · intro h
    rw [stepN_newIter]
    have hmin : min k ps.length = k := Nat.min_eq_left (le_of_lt h)
    rw [hmin]
    unfold doltTablePartitionIter.Next
    rw [dif_neg (by simp only; omega)]
  · intro h
    rw [stepN_newIter]
    have hmin : min k ps.length = ps.length := Nat.min_eq_right h
    rw [hmin]
    unfold doltTablePartitionIter.Next
    rw [dif_pos (by simp only; omega)]

/-- C10 witness: a concrete two-partition iterator returns the second
partition on the second call and EOF on the third. -/
theorem partitionIterExhaustion_witness :
    ((stepN (newDoltTablePartitionIter exParts) 1).Next).2
      = some (exParts.get ⟨1, by decide⟩)
    ∧ ((stepN (newDoltTablePartitionIter exParts) 2).Next).2 = none := by
  constructor
  · exact (partitionIterExhaustion exParts 1).1 (by decide)
  · exact (partitionIterExhaustion exParts 2).2.1 (by decide)

/-- C8: the swallowed error of GetSystemTableNames.  On a root whose table
names are available for the first sub-call and fail for the second, the
second sub-call (GetGeneratedSystemTables) reports a storage error, yet
GetSystemTableNames returns success with the generated names silently
missing — the error check in the source has an empty body.  This refutes
the claim that every error of a sub-call is returned to the caller; the
spec is the clear intent and this is a code bug. -/
theorem getSystemTableNamesSwallowsError :
    (GetGeneratedSystemTables exRoot 1).2
      = Except.error "chunk store unavailable"
    ∧ (GetSystemTableNames exRoot 0).2 = Except.ok [] := by
  constructor
  · rfl
  · rfl
